import Mathlib

/-!
# Shallow embedding of `spoff.py` (Spiral-of-Fifths musical pitch/time library)

This file embeds the pitch/interval/time algebra of the `spoff` Python 2
module and proves/refutes the specification's claims about it.

Modelling conventions (Python 2 semantics):
* Python integers are unbounded, so they are modelled by `Int`.
* Python 2 `/` on integers is floor division: `Int.fdiv`.
* Python `%` with a *positive* right operand agrees with `Int.emod`
  (written `%` on `Int` in Lean); for a variable right operand we use
  `Int.fmod`, which has the sign of the divisor exactly like Python's `%`.
* Python strings are modelled as `List Char`.
* `fractions.Fraction` is modelled by `PyFrac`, a numerator/denominator
  pair kept reduced with a positive denominator exactly as `Fraction`
  does; constructing `Fraction(n, 0)` raises, hence the `Option` in
  `pyFraction`.
* A raised exception (`ZeroDivisionError`, `IndexError`, `ValueError`,
  `TypeError`, `AttributeError`) is modelled as `none`; likewise the
  explicit `return None` branches.
* Python list subscripts accept negative indices (indexing from the end)
  and raise `IndexError` out of range: `pyGet`.
* `list.index(v)` returns the first index holding `v` (`idxOf?`); `None`
  entries never equal an integer.
-/

namespace Spoff

/-- `Pitch` record: keys `pitch`, `divisions_per_semitone`, `octave` of the
Python pitch dictionary. -/
structure Pitch where
  pitch : Int
  divisions_per_semitone : Int
  octave : Int
deriving DecidableEq, Repr

/-- `Interval` record: keys `interval`, `divisions_per_semitone`, `octave`
of the Python interval dictionary. -/
structure Interval where
  interval : Int
  divisions_per_semitone : Int
  octave : Int
deriving DecidableEq, Repr

/-- `Duration` record: keys `bar`, `beat`, `division` of the Python
duration dictionary. -/
structure Duration where
  bar : Int
  beat : Int
  division : Int
deriving DecidableEq, Repr

/-- Python list subscript with an `Int` index: non-negative indices count
from the front, negative indices from the back, anything out of range
raises `IndexError` (modelled as `none`). -/
def pyGet {α : Type} (l : List α) (i : Int) : Option α :=
  if 0 ≤ i then l.get? i.toNat
  else if 0 ≤ i + l.length then l.get? (i + l.length).toNat
  else none

/-- Python `list.index(v)` on a list of optional integers (the `None`
sentinel occupies index 0 of the interval tables): first position whose
entry equals `Some v`, `ValueError` (= `none`) if absent. -/
def idxOf? : List (Option Int) → Int → Option Nat
  | [], _ => none
  | x :: xs, v => if x = some v then some 0 else (idxOf? xs v).map (· + 1)

/-- A `fractions.Fraction` value: by construction always reduced with a
positive denominator (the observable `numerator`/`denominator` pair). -/
structure PyFrac where
  num : Int
  den : Int
deriving DecidableEq, Repr

/-- Reduce `n / d` (`d ≠ 0`) to lowest terms with a positive denominator,
as `Fraction._normalize` does.  The divisions are exact, so the rounding
mode is irrelevant; `Int.ediv` is used. -/
def fracNormalize (n d : Int) : PyFrac :=
  let g : Int := (Int.gcd n d : Int)
  let n' := Int.ediv n g
  let d' := Int.ediv d g
  if d' < 0 then ⟨-n', -d'⟩ else ⟨n', d'⟩

/-- `Fraction(n, d)`: reduced rational, `ZeroDivisionError` on `d = 0`. -/
def pyFraction (n d : Int) : Option PyFrac :=
  if d = 0 then none else some (fracNormalize n d)

/-- `Fraction.__add__`. -/
def fracAdd (a b : PyFrac) : PyFrac :=
  fracNormalize (a.num * b.den + b.num * a.den) (a.den * b.den)

/-- `Fraction.__sub__`. -/
def fracSub (a b : PyFrac) : PyFrac :=
  fracNormalize (a.num * b.den - b.num * a.den) (a.den * b.den)

/-- `pitch_order = [3, 0, 4, 1, 5, 2, 6]`. -/
def pitch_order : List Int := [3, 0, 4, 1, 5, 2, 6]

/-- `intervalList = [None, 0, 2, 4, -1, 1, 3, 5]`. -/
def intervalList : List (Option Int) :=
  [none, some 0, some 2, some 4, some (-1), some 1, some 3, some 5]

/-- `intervalListP4 = [None, 0, 2, 4, 6, 1, 3, 5]`. -/
def intervalListP4 : List (Option Int) :=
  [none, some 0, some 2, some 4, some 6, some 1, some 3, some 5]

/-- `majorScale`: the seven whole/half step intervals of a major scale. -/
def majorScale : List Interval :=
  [⟨2, 1, 0⟩, ⟨2, 1, 0⟩, ⟨-5, 1, 0⟩, ⟨2, 1, 0⟩, ⟨2, 1, 0⟩, ⟨2, 1, 0⟩, ⟨-5, 1, 0⟩]

/-- `minorScale = majorScale[5:] + majorScale[0:5]` (harmonic minor). -/
def minorScale : List Interval := majorScale.drop 5 ++ majorScale.take 5

/-- `lessThanPitch(source_pitch, dest_pitch)` for non-null arguments.
Compares octaves, then `pitch_order[pitch % 7]` (letter rank), and on a tie
`pitch_order[dest/7] < pitch_order[source/7]` with Python 2 floor division
and Python list indexing (negative indices wrap, out of range raises). -/
def lessThanPitch (source_pitch dest_pitch : Pitch) : Option Bool :=
  if dest_pitch.octave > source_pitch.octave then some true
  else if dest_pitch.octave < source_pitch.octave then some false
  else
    match pyGet pitch_order (dest_pitch.pitch % 7),
          pyGet pitch_order (source_pitch.pitch % 7) with
    | some od, some os =>
      if od > os then some true
      else if od < os then some false
      else
        match pyGet pitch_order (dest_pitch.pitch.fdiv 7),
              pyGet pitch_order (source_pitch.pitch.fdiv 7) with
        | some qd, some qs => some (decide (qd < qs))
        | _, _ => none
    | _, _ => none

/-- `greaterThanPitch(source_pitch, dest_pitch)` for non-null arguments. -/
def greaterThanPitch (source_pitch dest_pitch : Pitch) : Option Bool :=
  if source_pitch.octave > dest_pitch.octave then some true
  else if source_pitch.octave < dest_pitch.octave then some false
  else
    match pyGet pitch_order (source_pitch.pitch % 7),
          pyGet pitch_order (dest_pitch.pitch % 7) with
    | some os, some od =>
      if os > od then some true
      else if os < od then some false
      else
        match pyGet pitch_order (source_pitch.pitch.fdiv 7),
              pyGet pitch_order (dest_pitch.pitch.fdiv 7) with
        | some qs, some qd => some (decide (qs < qd))
        | _, _ => none
    | _, _ => none

/-- `equatePitch(source_pitch, dest_pitch)` for non-null arguments:
equality of `octave` and `pitch` fields. -/
def equatePitch (source_pitch dest_pitch : Pitch) : Bool :=
  decide (dest_pitch.octave = source_pitch.octave) &&
    decide (dest_pitch.pitch = source_pitch.pitch)

/-- `getInterval(source_pitch, dest_pitch)` for non-null arguments.
The interval is measured upward from the notationally lower pitch; the
octave-stripped comparison supplies the `octave_less_than` /
`octave_more_than` adjustments.  `none` models both the `return None`
branches, the final `raise ValueError`, and exceptions propagating out of
the comparisons. -/
def getInterval (source_pitch dest_pitch : Pitch) : Option Interval :=
  match pyFraction source_pitch.pitch source_pitch.divisions_per_semitone,
        pyFraction dest_pitch.pitch dest_pitch.divisions_per_semitone with
  | some sourceNoteFraction, some destNoteFraction =>
    let source_pitch_octave_zero : Pitch := { source_pitch with octave := 0 }
    let dest_pitch_octave_zero : Pitch := { dest_pitch with octave := 0 }
    match lessThanPitch source_pitch_octave_zero dest_pitch_octave_zero with
    | none => none
    | some lt0 =>
      match (if lt0 then some ((0 : Int), (-1 : Int)) else
        match greaterThanPitch source_pitch_octave_zero dest_pitch_octave_zero with
        | none => none
        | some gt0 =>
          if gt0 then some ((-1 : Int), (0 : Int))
          else if equatePitch source_pitch_octave_zero dest_pitch_octave_zero then
            some ((0 : Int), (0 : Int))
          else none) with
      | none => none
      | some (octave_less_than, octave_more_than) =>
        if source_pitch.octave < dest_pitch.octave then
          let newNoteFraction := fracSub destNoteFraction sourceNoteFraction
          some { interval := newNoteFraction.num,
                 divisions_per_semitone := newNoteFraction.den,
                 octave := dest_pitch.octave - source_pitch.octave + octave_less_than }
        else if source_pitch.octave > dest_pitch.octave then
          let newNoteFraction := fracSub sourceNoteFraction destNoteFraction
          some { interval := newNoteFraction.num,
                 divisions_per_semitone := newNoteFraction.den,
                 octave := source_pitch.octave - dest_pitch.octave + octave_more_than }
        else
          match lessThanPitch source_pitch dest_pitch with
          | none => none
          | some lt =>
            if lt then
              let newNoteFraction := fracSub destNoteFraction sourceNoteFraction
              some { interval := newNoteFraction.num,
                     divisions_per_semitone := newNoteFraction.den,
                     octave := dest_pitch.octave - source_pitch.octave }
            else
              match greaterThanPitch source_pitch dest_pitch with
              | none => none
              | some gt =>
                if gt then
                  let newNoteFraction := fracSub sourceNoteFraction destNoteFraction
                  some { interval := newNoteFraction.num,
                         divisions_per_semitone := newNoteFraction.den,
                         octave := source_pitch.octave - dest_pitch.octave }
                else if equatePitch source_pitch dest_pitch then
                  some { interval := 0, divisions_per_semitone := 1, octave := 0 }
                else none
  | _, _ => none

/-- `addInterval(note, interval)`: raise `note` by `interval`, adding an
extra octave when the interval from `note` up to the next C has an
interval class (via `intervalListP4.index`) at or before the class of the
supplied interval. -/
def addInterval (note : Pitch) (interval : Interval) : Option Pitch :=
  match pyFraction note.pitch note.divisions_per_semitone,
        pyFraction interval.interval interval.divisions_per_semitone with
  | some noteFraction, some intervalFraction =>
    let newNoteFraction := fracAdd noteFraction intervalFraction
    let newOctave := note.octave + interval.octave
    let newNote : Pitch :=
      ⟨newNoteFraction.num, newNoteFraction.den, newOctave⟩
    let nextC : Pitch := ⟨1, note.divisions_per_semitone, note.octave + 1⟩
    match getInterval note nextC with
    | none => none
    | some gi =>
      match idxOf? intervalListP4 (gi.interval % 7),
            idxOf? intervalListP4 (interval.interval % 7) with
      | some i1, some i2 =>
        if i1 ≤ i2 then some { newNote with octave := newNote.octave + 1 }
        else some newNote
      | _, _ => none
  | _, _ => none

/-- `addDuration(location, duration, beats=4, divisionsPerBeat=8)`:
component-wise addition with Python 2 floor-division carry
(`/` is `Int.fdiv`, `%` is `Int.fmod`).  Division by a zero
`divisionsPerBeat` or `beats` raises (`none`). -/
def addDuration (location duration : Duration)
    (beats : Int := 4) (divisionsPerBeat : Int := 8) : Option Duration :=
  if divisionsPerBeat = 0 ∨ beats = 0 then none
  else
    let sourceBar := location.bar
    let sourceBeat := location.beat
    let sourceDiv := location.division
    let durBars := duration.bar
    let durBeats := duration.beat
    let durDivs := duration.division
    let overflowBeats := (sourceDiv + durDivs).fdiv divisionsPerBeat
    let newDivisions := (sourceDiv + durDivs).fmod divisionsPerBeat
    let overflowBars := (sourceBeat + durBeats + overflowBeats).fdiv beats
    let newBeats := (sourceBeat + durBeats + overflowBeats).fmod beats
    let newBars := sourceBar + durBars + overflowBars
    some ⟨newBars, newBeats, newDivisions⟩

/-! ## Text grammars (Python strings modelled as `List Char`) -/

/-- The character of a decimal digit. -/
def digitChar : Nat → Char
  | 0 => '0' | 1 => '1' | 2 => '2' | 3 => '3' | 4 => '4'
  | 5 => '5' | 6 => '6' | 7 => '7' | 8 => '8' | _ => '9'

/-- Digits of `n`, most significant first, with explicit fuel (any fuel
at least `n` computes the digits of Python `str(n)`; the fuel only makes
the recursion structural). -/
def natDigitsAux : Nat → Nat → List Char → List Char
  | 0, n, acc => digitChar n :: acc
  | fuel + 1, n, acc =>
    if n < 10 then digitChar n :: acc
    else natDigitsAux fuel (n / 10) (digitChar (n % 10) :: acc)

/-- Python `str(n)` for a non-negative integer `n`. -/
def natDigits (n : Nat) : List Char := natDigitsAux n n []

/-- Python `str(i)` for an arbitrary integer. -/
def intStr (i : Int) : List Char :=
  if i < 0 then '-' :: natDigits i.natAbs else natDigits i.toNat

/-- The character class `[0-9]` of the parsing regexes. -/
def isDigitChar (c : Char) : Bool := decide ('0' ≤ c) && decide (c ≤ '9')

/-- Numeric value of a digit character. -/
def digitVal (c : Char) : Nat := c.toNat - 48

/-- Value of a non-empty digit string. -/
def digitsToNat (l : List Char) : Nat := l.foldl (fun a c => 10 * a + digitVal c) 0

/-- Python `int(s)`: an optional minus sign followed by at least one
digit; anything else raises `ValueError` (= `none`). -/
def pyInt : List Char → Option Int
  | [] => none
  | c :: r =>
    if c = '-' then
      if r ≠ [] ∧ r.all isDigitChar then some (-(digitsToNat r : Int)) else none
    else if (c :: r).all isDigitChar then some ((digitsToNat (c :: r) : Int))
    else none

/-- Python string repetition `s * n` (empty for `n ≤ 0`). -/
def pyRepeat (s : List Char) (n : Int) : List Char :=
  if n ≤ 0 then [] else List.flatten (List.replicate n.toNat s)

/-- `naturals[letter.upper()]` for a letter admitted by `[a-gA-G]`
(`naturals = {F:0, C:1, G:2, D:3, A:4, E:5, B:6}`). -/
def pitchLetterVal : Char → Option Int
  | 'F' => some 0 | 'C' => some 1 | 'G' => some 2 | 'D' => some 3
  | 'A' => some 4 | 'E' => some 5 | 'B' => some 6
  | 'f' => some 0 | 'c' => some 1 | 'g' => some 2 | 'd' => some 3
  | 'a' => some 4 | 'e' => some 5 | 'b' => some 6
  | _ => none

/-- `naturals.keys()[naturals.values().index(v)]`: the reverse lookup of
the `naturals` dictionary (Python 2 guarantees `keys()` and `values()`
enumerate in the same order; the values `0..6` are distinct). -/
def invNatural (v : Int) : Option Char :=
  if v = 0 then some 'F' else if v = 1 then some 'C'
  else if v = 2 then some 'G' else if v = 3 then some 'D'
  else if v = 4 then some 'A' else if v = 5 then some 'E'
  else if v = 6 then some 'B' else none

/-- Greedy run of the pitch-accidental class `[#b]*`, returning the run
and the remaining characters. -/
def takeAcc : List Char → List Char × List Char
  | [] => ([], [])
  | c :: r =>
    if c = '#' ∨ c = 'b' then
      let p := takeAcc r
      (c :: p.1, p.2)
    else ([], c :: r)

/-- `text2pitch(text)`: the regex `([a-gA-G])([#b]*)(-?[0-9]*)` applied
with `re.match` (anchored at the start, trailing characters ignored);
no match, or `int()` failing on a group-3 consisting of a bare `-`,
raises (= `none`). -/
def text2pitch (text : List Char) : Option Pitch :=
  match text with
  | [] => none
  | c :: rest =>
    match pitchLetterVal c with
    | none => none
    | some pitchClass =>
      let acc := takeAcc rest
      let accidental := acc.1
      let g3 : List Char :=
        match acc.2 with
        | [] => []
        | c :: r =>
          if c = '-' then '-' :: r.takeWhile isDigitChar
          else (c :: r).takeWhile isDigitChar
      match (if g3 = [] then some (0 : Int) else pyInt g3) with
      | none => none
      | some octave =>
        let alter : Int :=
          if '#' ∈ accidental then 7 * accidental.length
          else if 'b' ∈ accidental then -7 * accidental.length
          else 0
        some ⟨pitchClass + alter, 1, octave⟩

/-- `pitch2text(pitch)`: format a pitch (branches for
`divisions_per_semitone` above 2, equal to 2, equal to 1; anything else
raises `ValueError`, and `divisions_per_semitone = 0` raises
`ZeroDivisionError`). -/
def pitch2text (pitch : Pitch) : Option (List Char) :=
  let spoffPitch := pitch.pitch
  let dps := pitch.divisions_per_semitone
  if dps = 0 then none
  else
    let spoffPitchClass := ((spoffPitch + spoffPitch.fmod dps * 7).fdiv dps) % 7
    let accidental := (spoffPitch - spoffPitchClass * dps).fdiv 7
    match invNatural spoffPitchClass with
    | none => none
    | some letter =>
      let octave := intStr pitch.octave
      if dps > 2 then
        match pyFraction spoffPitch dps with
        | none => none
        | some pitchFraction =>
          some ([letter] ++ natDigits accidental.natAbs ++ ['/'] ++
            natDigits dps.toNat ++
            [if pitchFraction.num > 0 then '#' else 'b'] ++ octave)
      else if dps = 2 then
        let accidentalSemitone := if spoffPitch > spoffPitchClass * dps then '#' else 'b'
        let accidentalQuartertone := if spoffPitch > spoffPitchClass * dps then '+' else 'd'
        some ([letter] ++ pyRepeat [accidentalQuartertone] ((accidental.natAbs : Int) % 2)
          ++ pyRepeat [accidentalSemitone] ((accidental.natAbs : Int).fdiv 2) ++ octave)
      else if dps = 1 then
        let accidentalSign : List Char :=
          if accidental > 0 then ['#'] else if accidental < 0 then ['b'] else []
        some ([letter] ++ pyRepeat accidentalSign ((accidental.natAbs : Int).fdiv dps) ++ octave)
      else none

/-- The ordered match candidates of the interval-quality alternation
`([MmPp]?|[Aa]*|[Dd]*)`: each candidate is the matched quality text and
the remaining characters, in backtracking order (first alternative with
one character then empty, then the `A` run from longest to empty, then
the `D` run from longest to empty). -/
def alterCandidates (l : List Char) : List (List Char × List Char) :=
  let alt1 : List (List Char × List Char) :=
    (match l with
     | c :: r =>
       if c = 'M' ∨ c = 'm' ∨ c = 'P' ∨ c = 'p' then [([c], r)] else []
     | [] => []) ++ [([], l)]
  let aRun := l.takeWhile fun c => decide (c = 'A') || decide (c = 'a')
  let alt2 := (List.range (aRun.length + 1)).map fun k =>
    let j := aRun.length - k
    (aRun.take j, l.drop j)
  let dRun := l.takeWhile fun c => decide (c = 'D') || decide (c = 'd')
  let alt3 := (List.range (dRun.length + 1)).map fun k =>
    let j := dRun.length - k
    (dRun.take j, l.drop j)
  alt1 ++ alt2 ++ alt3

/-- After the octave-prefix group: match `\+?` (greedily, with
backtracking) followed by the quality alternation followed by the
mandatory digit group `([0-9]+)` (the ordinal-suffix group is optional
and can never cause failure).  Returns the quality text and the digit
text. -/
def matchAfterOctave (l : List Char) : Option (List Char × List Char) :=
  let tryCore : List Char → Option (List Char × List Char) := fun s =>
    (alterCandidates s).findSome? fun g2r =>
      let g3 := g2r.2.takeWhile isDigitChar
      if g3 = [] then none else some (g2r.1, g3)
  match l with
  | '+' :: r =>
    match tryCore r with
    | some x => some x
    | none => tryCore ('+' :: r)
  | _ => tryCore l

/-- The regex `([0-9]*)\+?([MmPp]?|[Aa]*|[Dd]*)([0-9]+)(st|nd|rd|th)?`
applied with `re.match`: the greedy octave group tries the longest digit
prefix first and backtracks.  Returns groups 1, 2 and 3. -/
def parseIntervalText (text : List Char) :
    Option (List Char × List Char × List Char) :=
  let dp := text.takeWhile isDigitChar
  (List.range (dp.length + 1)).findSome? fun k =>
    let j := dp.length - k
    let g1 := dp.take j
    match matchAfterOctave (text.drop j) with
    | some g2g3 => some (g1, g2g3.1, g2g3.2)
    | none => none

/-- `text2interval(text)`: parse the interval grammar.  A failed regex
match raises `AttributeError`; `interval_class = 0` (diatonic numbers
divisible by 8) reaches `intervalList[0] = None` and raises `TypeError`
on `None + modifier`; both are `none`. -/
def text2interval (text : List Char) : Option Interval :=
  match parseIntervalText text with
  | none => none
  | some (g1, alter, g3) =>
    let octave0 : Int := if g1 = [] then 0 else (digitsToNat g1 : Int)
    let type : Int := (digitsToNat g3 : Int)
    let octave := octave0 + type.fdiv 8
    let interval_class := type % 8
    let modifierOpt : Option Int :=
      if interval_class = 2 ∨ interval_class = 3 ∨ interval_class = 6 ∨
          interval_class = 7 then
        some (if 'M' ∈ alter then 0
          else if 'm' ∈ alter then -7
          else if 'a' ∈ alter ∨ 'A' ∈ alter then 7 * alter.length
          else if 'd' ∈ alter ∨ 'D' ∈ alter then -7 * alter.length - 7
          else 0)
      else if interval_class = 0 ∨ interval_class = 1 ∨ interval_class = 4 ∨
          interval_class = 5 then
        -- the perfect case leaves the modifier at 0; a separate `if`
        -- then handles augmented/diminished
        some (if 'a' ∈ alter ∨ 'A' ∈ alter then 7 * alter.length
          else if 'd' ∈ alter ∨ 'D' ∈ alter then -7 * alter.length
          else 0)
      else none
    match modifierOpt, pyGet intervalList interval_class with
    | some modifier, some (some base) =>
      some ⟨base + modifier, 1, octave⟩
    | _, _ => none

/-- `interval2text(interval)`: format an interval as
`octave '+' quality classDigit` (assuming `divisions_per_semitone = 1`,
as the source does). -/
def interval2text (interval : Interval) : Option (List Char) :=
  let interval_string := intStr interval.octave ++ ['+']
  let spoff_interval_class := interval.interval % 7
  let spoff_modifier := interval.interval.fdiv 7
  match idxOf? intervalListP4 spoff_interval_class with
  | none => none
  | some interval_class =>
    if interval_class = 2 ∨ interval_class = 3 ∨ interval_class = 6 ∨
        interval_class = 7 then
      if -2 ≤ spoff_modifier ∧ spoff_modifier ≤ 1 then
        match pyGet ['d', 'm', 'M', 'A'] (spoff_modifier + 2) with
        | none => none
        | some ch =>
          some (interval_string ++ [ch] ++ natDigits interval_class)
      else if spoff_modifier < -2 then
        some (interval_string ++ pyRepeat ['d'] (-spoff_modifier) ++
          natDigits interval_class)
      else
        some (interval_string ++ pyRepeat ['A'] spoff_modifier ++
          natDigits interval_class)
    else if interval_class = 4 then
      if spoff_modifier = -1 then
        some (interval_string ++ ['P'] ++ natDigits interval_class)
      else if spoff_modifier < -1 then
        some (interval_string ++ pyRepeat ['d'] (-(spoff_modifier + 1)) ++
          natDigits interval_class)
      else
        some (interval_string ++ pyRepeat ['A'] (spoff_modifier + 1) ++
          natDigits interval_class)
    else if interval_class = 0 ∨ interval_class = 1 ∨ interval_class = 5 then
      if spoff_modifier = 0 then
        some (interval_string ++ ['P'] ++ natDigits interval_class)
      else if spoff_modifier < 0 then
        some (interval_string ++ pyRepeat ['d'] (-spoff_modifier) ++
          natDigits interval_class)
      else
        some (interval_string ++ pyRepeat ['A'] spoff_modifier ++
          natDigits interval_class)
    else none

/-- The loop of `scale`: `pitchArray.append(addInterval(pitchArray[-1], interval))`. -/
def scaleGo (last : Pitch) (acc : List Pitch) : List Interval → Option (List Pitch)
  | [] => some acc
  | i :: rest =>
    match addInterval last i with
    | none => none
    | some p => scaleGo p (acc ++ [p]) rest

/-- `scale(text)`: the regex `([AaBbCcDdEeFfGg][b#]?)([Mm])`, then the
key-note via `text2pitch`, then seven `addInterval` steps over the major
or harmonic-minor template. -/
def scale (text : List Char) : Option (List Pitch) :=
  match text with
  | [] => none
  | c :: rest =>
    match pitchLetterVal c with
    | none => none
    | some _ =>
      let parsed : Option (List Char × Char) :=
        match rest with
        | a :: m :: _ =>
          if (a = 'b' ∨ a = '#') ∧ (m = 'M' ∨ m = 'm') then some ([c, a], m)
          else if a = 'M' ∨ a = 'm' then some ([c], a)
          else none
        | [a] => if a = 'M' ∨ a = 'm' then some ([c], a) else none
        | [] => none
      match parsed with
      | none => none
      | some (keytext, mode) =>
        match text2pitch keytext with
        | none => none
        | some keynote =>
          match (if mode = 'M' then some majorScale
            else if mode = 'm' then some minorScale else none) with
          | none => none
          | some template => scaleGo keynote [keynote] template

/-- Proof infrastructure (not part of the source): a decidable check, for
one natural key-note position `pp` and one interval value `iv` in octave
0, that whenever `addInterval` stays inside the key-note's octave the
measured interval recovers the added one. -/
def c1Check (pp iv : Int) : Bool :=
  match addInterval ⟨pp, 1, 0⟩ ⟨iv, 1, 0⟩ with
  | none => true
  | some q =>
    !(decide (q.octave = 0)) ||
      decide (getInterval ⟨pp, 1, 0⟩ q = some ⟨iv, 1, 0⟩)

end Spoff

namespace Spoff

/-! ## Helper lemmas -/

theorem lessThanPitch_shift (a d b e o1 o2 t : Int) :
    lessThanPitch ⟨a, d, o1 + t⟩ ⟨b, e, o2 + t⟩ = lessThanPitch ⟨a, d, o1⟩ ⟨b, e, o2⟩ := by
  unfold lessThanPitch
  simp only [gt_iff_lt, add_lt_add_iff_right]

theorem greaterThanPitch_shift (a d b e o1 o2 t : Int) :
    greaterThanPitch ⟨a, d, o1 + t⟩ ⟨b, e, o2 + t⟩ = greaterThanPitch ⟨a, d, o1⟩ ⟨b, e, o2⟩ := by
  unfold greaterThanPitch
  simp only [gt_iff_lt, add_lt_add_iff_right]

theorem equatePitch_shift (a d b e o1 o2 t : Int) :
    equatePitch ⟨a, d, o1 + t⟩ ⟨b, e, o2 + t⟩ = equatePitch ⟨a, d, o1⟩ ⟨b, e, o2⟩ := by
  unfold equatePitch
  simp only [add_left_inj]

theorem getInterval_shift (a d b e o1 o2 t : Int) :
    getInterval ⟨a, d, o1 + t⟩ ⟨b, e, o2 + t⟩ = getInterval ⟨a, d, o1⟩ ⟨b, e, o2⟩ := by
  unfold getInterval
  simp only [lessThanPitch_shift, greaterThanPitch_shift, equatePitch_shift,
    gt_iff_lt, add_lt_add_iff_right, add_sub_add_right_eq_sub]

theorem addInterval_shift (a d o t : Int) (i : Interval) :
    addInterval ⟨a, d, o + t⟩ i =
      (addInterval ⟨a, d, o⟩ i).map
        fun q => ⟨q.pitch, q.divisions_per_semitone, q.octave + t⟩ := by
  unfold addInterval
  dsimp only
  rw [show o + t + 1 = o + 1 + t from by omega, getInterval_shift]
  cases hnf : pyFraction a d with
  | none => rfl
  | some nf =>
    cases hitf : pyFraction i.interval i.divisions_per_semitone with
    | none => rfl
    | some itf =>
      dsimp only
      cases hgi : getInterval ⟨a, d, o⟩ ⟨1, d, o + 1⟩ with
      | none => rfl
      | some gi =>
        dsimp only
        cases hi1 : idxOf? intervalListP4 (gi.interval % 7) with
        | none => rfl
        | some i1 =>
          cases hi2 : idxOf? intervalListP4 (i.interval % 7) with
          | none => rfl
          | some i2 =>
            dsimp only
            by_cases hle : i1 ≤ i2
            · rw [if_pos hle, if_pos hle]
              simp only [Option.map_some', Option.some.injEq, Pitch.mk.injEq]
              exact ⟨trivial, trivial, by omega⟩
            · rw [if_neg hle, if_neg hle]
              simp only [Option.map_some', Option.some.injEq, Pitch.mk.injEq]
              exact ⟨trivial, trivial, by omega⟩

theorem c1Check_spec (pp iv : Int) (h : c1Check pp iv = true) (q : Pitch)
    (hq : addInterval ⟨pp, 1, 0⟩ ⟨iv, 1, 0⟩ = some q) (hoct : q.octave = 0) :
    getInterval ⟨pp, 1, 0⟩ q = some ⟨iv, 1, 0⟩ := by
  unfold c1Check at h
  rw [hq] at h
  simp [hoct] at h
  exact h

theorem natDigitsAux_append (fuel n : Nat) (acc : List Char) :
    natDigitsAux fuel n acc = natDigitsAux fuel n [] ++ acc := by
  induction fuel generalizing n acc with
  | zero => rfl
  | succ fuel ih =>
    unfold natDigitsAux
    by_cases h : n < 10
    · rw [if_pos h, if_pos h]; rfl
    · rw [if_neg h, if_neg h, ih (n / 10), ih (n / 10) [digitChar (n % 10)]]
      simp

theorem digitVal_digitChar (d : Nat) (h : d < 10) : digitVal (digitChar d) = d := by
  interval_cases d <;> rfl

theorem isDigitChar_digitChar (d : Nat) : isDigitChar (digitChar d) = true := by
  unfold digitChar
  split <;> rfl

theorem mem_natDigitsAux_digit (fuel : Nat) : ∀ (n : Nat) (c : Char),
    c ∈ natDigitsAux fuel n [] → isDigitChar c = true := by
  induction fuel with
  | zero =>
    intro n c h
    simp [natDigitsAux] at h
    subst h
    exact isDigitChar_digitChar n
  | succ fuel ih =>
    intro n c h
    unfold natDigitsAux at h
    by_cases h10 : n < 10
    · rw [if_pos h10] at h
      simp at h
      subst h
      exact isDigitChar_digitChar n
    · rw [if_neg h10, natDigitsAux_append] at h
      rcases List.mem_append.mp h with h | h
      · exact ih _ _ h
      · simp at h
        subst h
        exact isDigitChar_digitChar _

theorem natDigits_digit {n : Nat} {c : Char} (h : c ∈ natDigits n) :
    isDigitChar c = true :=
  mem_natDigitsAux_digit n n c h

theorem natDigitsAux_ne_nil (fuel n : Nat) : natDigitsAux fuel n [] ≠ [] := by
  cases fuel with
  | zero => simp [natDigitsAux]
  | succ fuel =>
    unfold natDigitsAux
    by_cases h : n < 10
    · rw [if_pos h]; simp
    · rw [if_neg h, natDigitsAux_append]; simp

theorem digitsToNat_natDigitsAux (fuel : Nat) : ∀ n : Nat, n ≤ fuel →
    digitsToNat (natDigitsAux fuel n []) = n := by
  induction fuel with
  | zero =>
    intro n h
    have hn : n = 0 := by omega
    subst hn
    rfl
  | succ fuel ih =>
    intro n h
    unfold natDigitsAux
    by_cases h10 : n < 10
    · rw [if_pos h10]
      simp [digitsToNat, digitVal_digitChar n h10]
    · rw [if_neg h10, natDigitsAux_append]
      unfold digitsToNat
      rw [List.foldl_append]
      have hih := ih (n / 10) (by omega)
      unfold digitsToNat at hih
      simp only [List.foldl, hih, digitVal_digitChar (n % 10) (by omega)]
      omega

theorem digitsToNat_natDigits (n : Nat) : digitsToNat (natDigits n) = n :=
  digitsToNat_natDigitsAux n n le_rfl

theorem takeWhile_all {p : Char → Bool} (l : List Char)
    (h : ∀ c ∈ l, p c = true) : l.takeWhile p = l := by
  induction l with
  | nil => rfl
  | cons c r ih =>
    rw [List.takeWhile_cons, if_pos (by simpa using h c (by simp))]
    rw [ih fun x hx => h x (by simp [hx])]

theorem isDigitChar_all_natDigits (n : Nat) :
    (natDigits n).all isDigitChar = true := by
  rw [List.all_eq_true]
  intro c hc
  exact natDigits_digit hc

theorem takeAcc_not_acc (l : List Char)
    (h : ∀ c, l.head? = some c → c ≠ '#' ∧ c ≠ 'b') : takeAcc l = ([], l) := by
  cases l with
  | nil => rfl
  | cons c r =>
    obtain ⟨h1, h2⟩ := h c rfl
    unfold takeAcc
    rw [if_neg (by tauto)]

theorem takeAcc_replicate (s : Char) (hs : s = '#' ∨ s = 'b') (k : Nat)
    (l : List Char) (h : ∀ c, l.head? = some c → c ≠ '#' ∧ c ≠ 'b') :
    takeAcc (List.replicate k s ++ l) = (List.replicate k s, l) := by
  induction k with
  | zero =>
    rw [List.replicate_zero, List.nil_append, takeAcc_not_acc l h]
  | succ k ih =>
    rw [List.replicate_succ, List.cons_append]
    unfold takeAcc
    rw [if_pos hs, ih]

theorem flatten_replicate_single (m : Nat) (c : Char) :
    (List.replicate m [c]).flatten = List.replicate m c := by
  induction m with
  | zero => rfl
  | succ m ih => simp [List.replicate_succ, ih]

theorem pyRepeat_single (c : Char) (n : Int) :
    pyRepeat [c] n = List.replicate n.toNat c := by
  unfold pyRepeat
  by_cases h : n ≤ 0
  · rw [if_pos h, Int.toNat_of_nonpos h]
    rfl
  · rw [if_neg h, flatten_replicate_single]

theorem pyRepeat_nil (n : Int) : pyRepeat [] n = [] := by
  unfold pyRepeat
  by_cases h : n ≤ 0
  · rw [if_pos h]
  · rw [if_neg h]
    induction n.toNat with
    | zero => rfl
    | succ m ih => simp_all [List.replicate_succ]

theorem intStr_ne_nil (o : Int) : intStr o ≠ [] := by
  unfold intStr
  by_cases h : o < 0
  · rw [if_pos h]; simp
  · rw [if_neg h]; exact natDigitsAux_ne_nil _ _

theorem intStr_head_not_acc (o : Int) :
    ∀ c, (intStr o).head? = some c → c ≠ '#' ∧ c ≠ 'b' := by
  intro c hc
  unfold intStr at hc
  by_cases h : o < 0
  · rw [if_pos h] at hc
    simp at hc
    subst hc
    exact ⟨by decide, by decide⟩
  · rw [if_neg h] at hc
    have hmem : c ∈ natDigits o.toNat := by
      rcases hd : natDigits o.toNat with _ | ⟨x, r⟩
      · exact absurd hd (natDigitsAux_ne_nil _ _)
      · rw [hd] at hc
        simp at hc
        simp [hd, hc]
    have hdig := natDigits_digit hmem
    constructor <;> rintro rfl <;> exact absurd hdig (by decide)

theorem pyInt_intStr (o : Int) : pyInt (intStr o) = some o := by
  by_cases h : o < 0
  · rw [show intStr o = '-' :: natDigits o.natAbs from by unfold intStr; rw [if_pos h]]
    unfold pyInt
    dsimp only
    rw [if_pos rfl,
      if_pos ⟨natDigitsAux_ne_nil _ _, isDigitChar_all_natDigits _⟩,
      digitsToNat_natDigits]
    congr 1
    omega
  · have hstr : intStr o = natDigits o.toNat := by unfold intStr; rw [if_neg h]
    obtain ⟨c, r, hcr⟩ : ∃ c r, natDigits o.toNat = c :: r := by
      rcases hd : natDigits o.toNat with _ | ⟨c, r⟩
      · exact absurd hd (natDigitsAux_ne_nil _ _)
      · exact ⟨c, r, rfl⟩
    have hcd : isDigitChar c = true := natDigits_digit (by rw [hcr]; simp)
    rw [hstr, hcr]
    unfold pyInt
    dsimp only
    rw [if_neg (by rintro rfl; exact absurd hcd (by decide)),
      if_pos (by rw [← hcr]; exact isDigitChar_all_natDigits _),
      ← hcr, digitsToNat_natDigits]
    congr 1
    omega

theorem g3_intStr (oct : Int) :
    (match intStr oct with
     | [] => ([] : List Char)
     | c :: r =>
       if c = '-' then '-' :: r.takeWhile isDigitChar
       else (c :: r).takeWhile isDigitChar) = intStr oct := by
  by_cases h : oct < 0
  · rw [show intStr oct = '-' :: natDigits oct.natAbs from by
      unfold intStr; rw [if_pos h]]
    dsimp only
    rw [if_pos rfl, takeWhile_all _ fun c hc => natDigits_digit hc]
  · have hstr : intStr oct = natDigits oct.toNat := by unfold intStr; rw [if_neg h]
    obtain ⟨c, r, hcr⟩ : ∃ c r, natDigits oct.toNat = c :: r := by
      rcases hd : natDigits oct.toNat with _ | ⟨c, r⟩
      · exact absurd hd (natDigitsAux_ne_nil _ _)
      · exact ⟨c, r, rfl⟩
    have hcd : isDigitChar c = true := natDigits_digit (by rw [hcr]; simp)
    rw [hstr, hcr]
    dsimp only
    rw [if_neg (by rintro rfl; exact absurd hcd (by decide))]
    rw [← hcr, takeWhile_all _ fun x hx => natDigits_digit hx]

/-- Parsing a canonically formatted pitch text: a letter, a run of one
repeated accidental character, and the decimal octave. -/
theorem text2pitch_canonical (letter : Char) (cval : Int)
    (hl : pitchLetterVal letter = some cval) (s : Char) (hs : s = '#' ∨ s = 'b')
    (k : Nat) (oct : Int) :
    text2pitch (letter :: (List.replicate k s ++ intStr oct)) =
      some ⟨cval + (if '#' ∈ List.replicate k s then 7 * (k : Int)
        else if 'b' ∈ List.replicate k s then -7 * (k : Int) else 0), 1, oct⟩ := by
  unfold text2pitch
  dsimp only
  rw [hl]
  dsimp only
  rw [takeAcc_replicate s hs k (intStr oct) (intStr_head_not_acc oct)]
  dsimp only
  rw [g3_intStr oct]
  rw [if_neg (by simpa using intStr_ne_nil oct), pyInt_intStr]
  dsimp only
  rw [List.length_replicate]

/-- The reverse dictionary lookup of `pitch2text` and the forward lookup
of `text2pitch` are mutually inverse on the seven letter classes. -/
theorem invNatural_pitchLetterVal (v : Int) (h0 : 0 ≤ v) (h6 : v < 7) :
    ∃ L, invNatural v = some L ∧ pitchLetterVal L = some v := by
  have h : v = 0 ∨ v = 1 ∨ v = 2 ∨ v = 3 ∨ v = 4 ∨ v = 5 ∨ v = 6 := by omega
  rcases h with rfl | rfl | rfl | rfl | rfl | rfl | rfl <;> exact ⟨_, rfl, rfl⟩

/-! ## Claims -/

/-- **C3**: formatting any `dps = 1` pitch (any integer position, any
integer octave) and parsing it back is the identity; in particular
`pitch2text {pitch 8, dps 1, octave 4} = "C#4"` and
`text2pitch "C#4" = {pitch 8, dps 1, octave 4}`. -/
theorem pitch_text_roundtrip :
    (∀ pp oct : Int, (pitch2text ⟨pp, 1, oct⟩).bind text2pitch = some ⟨pp, 1, oct⟩) ∧
    pitch2text ⟨8, 1, 4⟩ = some ['C', '#', '4'] ∧
    text2pitch ['C', '#', '4'] = some ⟨8, 1, 4⟩ := by
  refine ⟨?_, by decide, by decide⟩
  intro pp oct
  unfold pitch2text
  dsimp only
  rw [if_neg (by decide : ¬((1 : Int) = 0))]
  rw [Int.fmod_one, zero_mul, add_zero, Int.fdiv_one, mul_one]
  have haq : (pp - pp % 7).fdiv 7 = pp / 7 := by
    rw [Int.fdiv_eq_ediv _ (by norm_num)]
    omega
  rw [haq]
  have h7a : 0 ≤ pp % 7 := Int.emod_nonneg pp (by norm_num)
  have h7b : pp % 7 < 7 := Int.emod_lt_of_pos pp (by norm_num)
  have hsum : 7 * (pp / 7) + pp % 7 = pp := Int.ediv_add_emod pp 7
  obtain ⟨L, hL, hLv⟩ := invNatural_pitchLetterVal (pp % 7) h7a h7b
  rw [hL]
  dsimp only
  rw [if_neg (by decide : ¬((1 : Int) > 2)), if_neg (by decide : ¬((1 : Int) = 2)),
    if_pos (rfl : (1 : Int) = 1), Int.fdiv_one]
  dsimp only [Option.bind]
  rcases lt_trichotomy (pp / 7) 0 with hq | hq | hq
  · rw [if_neg (by omega), if_pos hq, pyRepeat_single, Int.toNat_natCast,
      List.append_assoc, List.singleton_append]
    rw [text2pitch_canonical L (pp % 7) hLv 'b' (Or.inr rfl) (pp / 7).natAbs oct]
    rw [if_neg (by simp [List.mem_replicate]),
      if_pos (List.mem_replicate.mpr ⟨by omega, rfl⟩)]
    simp only [Option.some_inj, Pitch.mk.injEq, and_true, true_and]
    omega
  · rw [if_neg (by omega), if_neg (by omega), pyRepeat_nil, List.append_nil,
      List.singleton_append]
    have h := text2pitch_canonical L (pp % 7) hLv '#' (Or.inl rfl) 0 oct
    simp only [List.replicate_zero, List.nil_append, List.not_mem_nil,
      if_false] at h
    rw [h]
    simp only [Option.some_inj, Pitch.mk.injEq, and_true, true_and]
    omega
  · rw [if_pos hq, pyRepeat_single, Int.toNat_natCast, List.append_assoc,
      List.singleton_append]
    rw [text2pitch_canonical L (pp % 7) hLv '#' (Or.inl rfl) (pp / 7).natAbs oct]
    rw [if_pos (List.mem_replicate.mpr ⟨by omega, rfl⟩)]
    simp only [Option.some_inj, Pitch.mk.injEq, and_true, true_and]
    omega

/-- **C1**: for every diatonic pitch `p` (a natural, `0 ≤ pitch ≤ 6`, in
twelve-tone granularity `dps = 1`) and every diatonic interval `i`
(`-5 ≤ interval ≤ 5`, the spiral-of-fifths values of P1 through M7, with
`octave = 0` and `dps = 1`), if adding `i` to `p` does not cross a C
(octave) boundary — i.e. `addInterval` returns a pitch lying in `p`'s own
octave — then `getInterval(p, addInterval(p, i))` equals `i`. -/
theorem transpose_measure_inverse (p : Pitch) (i : Interval)
    (hpd : p.divisions_per_semitone = 1) (hpl : 0 ≤ p.pitch) (hpu : p.pitch ≤ 6)
    (hid : i.divisions_per_semitone = 1) (hio : i.octave = 0)
    (hil : -5 ≤ i.interval) (hiu : i.interval ≤ 5)
    (r : Pitch) (hr : addInterval p i = some r) (hoct : r.octave = p.octave) :
    getInterval p r = some i := by
  obtain ⟨pp, pd, po⟩ := p
  obtain ⟨iv, idv, io⟩ := i
  obtain ⟨rp, rd, ro⟩ := r
  dsimp only at hpd hpl hpu hid hio hil hiu hoct
  subst hpd hid hio
  rw [show po = 0 + po from (zero_add po).symm] at hr hoct ⊢
  rw [addInterval_shift] at hr
  cases hadd : addInterval ⟨pp, 1, 0⟩ ⟨iv, 1, 0⟩ with
  | none => rw [hadd] at hr; exact absurd hr (by simp)
  | some q =>
    rw [hadd, Option.map_some', Option.some_inj, Pitch.mk.injEq] at hr
    obtain ⟨hq1, hq2, hq3⟩ := hr
    have hq0 : q.octave = 0 := by omega
    rw [← hq1, ← hq2, ← hq3, getInterval_shift]
    have hchk : c1Check pp iv = true := by
      have h1 : pp = 0 ∨ pp = 1 ∨ pp = 2 ∨ pp = 3 ∨ pp = 4 ∨ pp = 5 ∨ pp = 6 := by
        omega
      have h2 : iv = -5 ∨ iv = -4 ∨ iv = -3 ∨ iv = -2 ∨ iv = -1 ∨ iv = 0 ∨
          iv = 1 ∨ iv = 2 ∨ iv = 3 ∨ iv = 4 ∨ iv = 5 := by omega
      rcases h1 with rfl | rfl | rfl | rfl | rfl | rfl | rfl <;>
        rcases h2 with rfl | rfl | rfl | rfl | rfl | rfl | rfl | rfl | rfl | rfl | rfl <;>
          decide
    exact c1Check_spec pp iv hchk q hadd hq0

/-- Witness for C1: `G4` raised by a major third (`M3`, spiral value 4)
stays inside octave 4 and measures back to `M3`. -/
theorem transpose_measure_inverse_witness :
    addInterval ⟨2, 1, 4⟩ ⟨4, 1, 0⟩ = some ⟨6, 1, 4⟩ ∧
    getInterval ⟨2, 1, 4⟩ ⟨6, 1, 4⟩ = some ⟨4, 1, 0⟩ := by
  refine ⟨by decide, ?_⟩
  exact transpose_measure_inverse ⟨2, 1, 4⟩ ⟨4, 1, 0⟩ rfl (by decide) (by decide)
    rfl rfl (by decide) (by decide) ⟨6, 1, 4⟩ (by decide) rfl

/-- **C2** fails on the code: with `a = Cbbbbbbb4` (position `-48`) and
`b = C4` (position `1`) — same octave, same letter class, accidental
counts `-7` and `0` whose `pitch_order` entries coincide — none of
`lessThanPitch`, `greaterThanPitch`, `equatePitch` is true, although the
docstrings promise a flatter/sharper/equal trichotomy. -/
theorem ordering_trichotomy_failure :
    lessThanPitch ⟨-48, 1, 4⟩ ⟨1, 1, 4⟩ = some false ∧
    greaterThanPitch ⟨-48, 1, 4⟩ ⟨1, 1, 4⟩ = some false ∧
    equatePitch ⟨-48, 1, 4⟩ ⟨1, 1, 4⟩ = false := by decide

/-- **C4**: the six literal worked examples of the specification, checked
end to end through the text grammars and the interval algebra. -/
theorem literal_worked_examples :
    ((text2pitch ['G', '4']).bind fun p =>
      (text2interval ['M', '3']).bind fun i => addInterval p i) =
        text2pitch ['B', '4'] ∧
    ((text2pitch ['F', '#', '3']).bind fun p =>
      (text2interval ['m', '3']).bind fun i => addInterval p i) =
        text2pitch ['A', '3'] ∧
    ((text2pitch ['B', 'b', '4']).bind fun p =>
      (text2interval ['d', 'd', '6']).bind fun i => addInterval p i) =
        text2pitch ['G', 'b', 'b', 'b', '5'] ∧
    ((text2pitch ['E', 'b', '4']).bind fun s =>
      (text2pitch ['F', '#', '4']).bind fun d =>
        (getInterval s d).bind interval2text) = some ['0', '+', 'A', '2'] ∧
    ((text2pitch ['G', '2']).bind fun s =>
      (text2pitch ['D', '6']).bind fun d =>
        (getInterval s d).bind interval2text) = some ['3', '+', 'P', '5'] ∧
    ((text2pitch ['F', '#', '4']).bind fun s =>
      (text2pitch ['C', '1']).bind fun d =>
        (getInterval s d).bind interval2text) = some ['3', '+', 'A', '4'] := by
  refine ⟨by decide, by decide, by decide, by decide, by decide, by decide⟩

/-- **C5** fails on the code: the 8th pitch of `scale("CM")` is
`{pitch 1, dps 1, octave 2}`, which is *two* octaves above the key-note
`{pitch 1, dps 1, octave 0}`, not one octave above it
(`{pitch 1, dps 1, octave 1}`). -/
theorem scale_CM_not_one_octave :
    (scale ['C', 'M']).bind (fun l => l.get? 0) = some ⟨1, 1, 0⟩ ∧
    (scale ['C', 'M']).bind (fun l => l.get? 7) = some ⟨1, 1, 2⟩ ∧
    ((⟨1, 1, 2⟩ : Pitch) ≠ ⟨1, 1, 1⟩) := by decide

/-- **C5** amended: `scale("CM")` does produce exactly 8 pitches whose 8th
element equals `addInterval(firstPitch, {interval 0, dps 1, octave 1})` —
but both sides are `{pitch 1, dps 1, octave 2}`, two octaves above the
key-note, because `addInterval`'s octave-wrap correction always fires
when the source pitch is a C. -/
theorem scale_CM_closure :
    scale ['C', 'M'] = some [⟨1, 1, 0⟩, ⟨3, 1, 1⟩, ⟨5, 1, 1⟩, ⟨0, 1, 1⟩,
      ⟨2, 1, 1⟩, ⟨4, 1, 1⟩, ⟨6, 1, 1⟩, ⟨1, 1, 2⟩] ∧
    (scale ['C', 'M']).map List.length = some 8 ∧
    addInterval ⟨1, 1, 0⟩ ⟨0, 1, 1⟩ = some ⟨1, 1, 2⟩ := by decide

/-- **C6** fails on the code: `C4` (position 1) and `C##4` (position 15)
share letter class and octave and `1 < 15`, yet `lessThanPitch` is
`False` (and `greaterThanPitch` is `True`): the tie-break indexes
`pitch_order` by the accidental count, which is not monotone. -/
theorem same_letter_ordering_failure :
    lessThanPitch ⟨1, 1, 4⟩ ⟨15, 1, 4⟩ = some false ∧
    greaterThanPitch ⟨1, 1, 4⟩ ⟨15, 1, 4⟩ = some true ∧
    (1 : Int) < 15 ∧ (1 : Int) % 7 = (15 : Int) % 7 := by decide

/-- **C7** fails on the code: `text2interval` does not return successfully
on pure compound octaves — `"8"` and `"P8"` reach `intervalList[0] = None`
and raise `TypeError`, while `"16"` is read as octave prefix `1` plus a
major sixth (`{interval 3, dps 1, octave 1}`), not as diatonic number 16
(whose octave contribution would be 2). -/
theorem text2interval_octave_crash :
    text2interval ['8'] = none ∧ text2interval ['P', '8'] = none ∧
    text2interval ['1', '6'] = some ⟨3, 1, 1⟩ ∧
    ((⟨3, 1, 1⟩ : Interval).octave ≠ 2) := by decide

/-- **C9**: `equatePitch` on the parses of `"C4"` and `"B#3"` is `False`,
and in general `equatePitch` is true exactly when the `pitch` and
`octave` fields agree — enharmonic spellings are never identified. -/
theorem equatePitch_exact_spelling :
    ((text2pitch ['C', '4']).bind fun a =>
      (text2pitch ['B', '#', '3']).map fun b => equatePitch a b) = some false ∧
    ∀ a b : Pitch, equatePitch a b = true ↔ b.octave = a.octave ∧ b.pitch = a.pitch := by
  refine ⟨by decide, ?_⟩
  intro a b
  simp [equatePitch]

/-- **C8**: `addDuration` adds the records component-wise with
floor-division carry — for any (possibly negative) fields and positive
`beats`/`divisionsPerBeat` the result is in normal form (fields within
`[0, threshold)`), the total metrical value is preserved exactly (which
is what floor-style borrowing means), and the specification's example in
3/4 time holds. -/
theorem addDuration_floor_carry (location duration : Duration)
    (beats divisionsPerBeat : Int) (hb : 0 < beats) (hd : 0 < divisionsPerBeat) :
    (∃ r : Duration, addDuration location duration beats divisionsPerBeat = some r ∧
      0 ≤ r.division ∧ r.division < divisionsPerBeat ∧
      0 ≤ r.beat ∧ r.beat < beats ∧
      r.bar * (beats * divisionsPerBeat) + r.beat * divisionsPerBeat + r.division =
        (location.bar + duration.bar) * (beats * divisionsPerBeat) +
          (location.beat + duration.beat) * divisionsPerBeat +
          (location.division + duration.division)) ∧
    addDuration ⟨6, 2, 0⟩ ⟨0, 2, 0⟩ 3 8 = some ⟨7, 1, 0⟩ := by
  refine ⟨?_, by decide⟩
  unfold addDuration
  rw [if_neg (by omega)]
  refine ⟨_, rfl, ?_⟩
  dsimp only
  rw [Int.fmod_eq_emod _ (by omega), Int.fmod_eq_emod _ (by omega),
    Int.fdiv_eq_ediv _ (by omega), Int.fdiv_eq_ediv _ (by omega)]
  have h1 := Int.ediv_add_emod (location.division + duration.division) divisionsPerBeat
  have h2 := Int.ediv_add_emod
    (location.beat + duration.beat +
      (location.division + duration.division) / divisionsPerBeat) beats
  refine ⟨Int.emod_nonneg _ (by omega), Int.emod_lt_of_pos _ hd,
    Int.emod_nonneg _ (by omega), Int.emod_lt_of_pos _ hb, ?_⟩
  linear_combination divisionsPerBeat * h2 + h1

/-- Witness for C8: the specification's 3/4-time example, obtained from
the general theorem. -/
theorem addDuration_floor_carry_witness :
    ∃ r : Duration, addDuration ⟨6, 2, 0⟩ ⟨0, 2, 0⟩ 3 8 = some r ∧
      0 ≤ r.division ∧ r.division < 8 ∧ 0 ≤ r.beat ∧ r.beat < 3 ∧
      r.bar * (3 * 8) + r.beat * 8 + r.division =
        (6 + 0) * (3 * 8) + (2 + 2) * 8 + (0 + 0) :=
  (addDuration_floor_carry ⟨6, 2, 0⟩ ⟨0, 2, 0⟩ 3 8 (by decide) (by decide)).1

/-- **C10** (implicit claim read off the formatter): for a
`dps = 1` interval whose printed class is a 2nd, 3rd, 6th or 7th, a
modifier `interval div 7` below `-2` is rendered as that many `'d'`
characters before the class digit, and a modifier above `1` as that many
`'A'` characters — i.e. this implementation emits repeated `'d'` for very
flat values and repeated `'A'` for very sharp ones. -/
theorem interval2text_extreme_modifiers (i : Interval)
    (_hdps : i.divisions_per_semitone = 1) (ic : Nat)
    (hic : idxOf? intervalListP4 (i.interval % 7) = some ic)
    (hcls : ic = 2 ∨ ic = 3 ∨ ic = 6 ∨ ic = 7) :
    (i.interval.fdiv 7 < -2 →
      interval2text i = some (intStr i.octave ++ ['+'] ++
        pyRepeat ['d'] (-(i.interval.fdiv 7)) ++ natDigits ic)) ∧
    (1 < i.interval.fdiv 7 →
      interval2text i = some (intStr i.octave ++ ['+'] ++
        pyRepeat ['A'] (i.interval.fdiv 7) ++ natDigits ic)) := by
  unfold interval2text
  dsimp only
  rw [hic]
  dsimp only
  rw [if_pos (by omega)]
  constructor
  · intro hm
    rw [if_neg (by omega), if_pos (by omega)]
  · intro hm
    rw [if_neg (by omega), if_neg (by omega)]

/-- **C7** amended: whenever the interval regex parses the text with a
group-3 diatonic number divisible by 8 (`interval_class = 0`, the pure
compound octaves and also the number 0), `text2interval` fails with
`TypeError` (modelled as `none`), because the base-value lookup hits the
unused `intervalList[0] = None` slot; it never produces the
perfect-octave interval the specification describes. -/
theorem text2interval_class0_fails (text g1 g2 g3 : List Char)
    (hp : parseIntervalText text = some (g1, g2, g3))
    (h8 : ((digitsToNat g3 : Int)) % 8 = 0) :
    text2interval text = none := by
  unfold text2interval
  rw [hp]
  dsimp only
  rw [h8]
  rw [if_neg (by decide), if_pos (by decide),
    show pyGet intervalList (0 : Int) = some none from by decide]

/-- Witness for the amended C7: the text `"8"` parses with diatonic
number 8 and `text2interval` fails on it. -/
theorem text2interval_class0_fails_witness :
    parseIntervalText ['8'] = some ([], [], ['8']) ∧
    ((digitsToNat ['8'] : Int)) % 8 = 0 ∧
    text2interval ['8'] = none :=
  ⟨by decide, by decide,
    text2interval_class0_fails ['8'] [] [] ['8'] (by decide) (by decide)⟩

/-- Witness for C10: a triply-diminished second (`-19 = 2 - 3·7`) prints
as `0+ddd2` and a doubly-augmented second (`16 = 2 + 2·7`) as `0+AA2`. -/
theorem interval2text_extreme_modifiers_witness :
    interval2text ⟨-19, 1, 0⟩ = some ['0', '+', 'd', 'd', 'd', '2'] ∧
    interval2text ⟨16, 1, 0⟩ = some ['0', '+', 'A', 'A', '2'] := by
  constructor
  · have h := (interval2text_extreme_modifiers ⟨-19, 1, 0⟩ rfl 2 (by decide)
      (Or.inl rfl)).1 (by decide)
    rw [h]; decide
  · have h := (interval2text_extreme_modifiers ⟨16, 1, 0⟩ rfl 2 (by decide)
      (Or.inl rfl)).2 (by decide)
    rw [h]; decide

end Spoff
